import Mathlib

/-!
Verification of `src/python/hail/methods/statgen.py` (hail statistical-genetics
methods): the GRM / HWE-normalized-PCA genotype normalizer pipeline, the
multiallelic split/downcode engine (`split_multi_hts`), and the precondition
checks of `linreg`, `pca`, `grm`, `ld_matrix` and `hwe_normalized_pca`.

A dataset entry is modelled by the number of alternate alleles of the genotype
call (`GT.num_alt_alleles()`), `none` when the call is missing.  A variant is
the list of its per-sample entries, in column order; a dataset is the list of
its variants.
-/

namespace Hail

/-- Aggregator `agg.sum(dataset.GT.num_alt_alleles())`: the sum aggregator sums the
alternate-allele counts of the samples whose call is defined. -/
def grm_AC (calls : List (Option Nat)) : Nat :=
  (calls.filterMap id).sum

/-- Aggregator `agg.count_where(functions.is_defined(dataset.GT))`: the number of samples
whose call is defined. -/
def grm_nCalled (calls : List (Option Nat)) : Nat :=
  (calls.filterMap id).length

/-- Predicate of `filter_rows((dataset.AC > 0) & (dataset.AC < 2 * dataset.n_called))`
(grm, line 615): the predicate deciding whether a variant is kept. -/
def grm_keep (calls : List (Option Nat)) : Bool :=
  decide (0 < grm_AC calls) && decide (grm_AC calls < 2 * grm_nCalled calls)

/-- The row filter of `grm`: keep the non-monomorphic variants. -/
def grm_filter (variants : List (List (Option Nat))) : List (List (Option Nat)) :=
  variants.filter grm_keep

/-- Function `hwe_normalized_pca` (line 210) applies the same row filter, transcribed
from its own lines. -/
def hwe_keep (calls : List (Option Nat)) : Bool :=
  decide (0 < grm_AC calls) && decide (grm_AC calls < 2 * grm_nCalled calls)

/-- The row filter of `hwe_normalized_pca`. -/
def hwe_filter (variants : List (List (Option Nat))) : List (List (Option Nat)) :=
  variants.filter hwe_keep

/-- Expression `dataset.AC / dataset.n_called`, the value bound to `mean_gt`. -/
def mean_gt (AC n_called : Nat) : ℚ :=
  (AC : ℚ) / (n_called : ℚ)

/-- Expression `normalized_genotype_expr` of `grm` (lines 622-627): if the call is
defined, `(GT.num_alt_alleles() - mean_gt) / sqrt(mean_gt * (2 - mean_gt) *
n_variants / 2)`, else `0`. -/
noncomputable def grm_normalized_entry (AC n_called n_variants : Nat)
    (gt : Option Nat) : ℝ :=
  match gt with
  | some c =>
      ((c : ℝ) - (mean_gt AC n_called : ℝ)) /
        Real.sqrt ((mean_gt AC n_called : ℝ) * (2 - (mean_gt AC n_called : ℝ)) *
          (n_variants : ℝ) / 2)
  | none => 0

/-- Expression `entry_expr` of `hwe_normalized_pca` (lines 218-223), transcribed from its
own lines. -/
noncomputable def hwe_normalized_entry (AC n_called n_variants : Nat)
    (gt : Option Nat) : ℝ :=
  match gt with
  | some c =>
      ((c : ℝ) - (mean_gt AC n_called : ℝ)) /
        Real.sqrt ((mean_gt AC n_called : ℝ) * (2 - (mean_gt AC n_called : ℝ)) *
          (n_variants : ℝ) / 2)
  | none => 0

/-- Matrix `BlockMatrix.from_matrix_table(normalized_genotype_expr)`: the block matrix
whose rows are the retained variants and whose columns are the samples, with
`n_variants` the post-filter variant count. -/
noncomputable def grm_bm (ns : Nat) (filtered : List (List (Option Nat))) :
    Matrix (Fin filtered.length) (Fin ns) ℝ :=
  fun i j =>
    grm_normalized_entry (grm_AC (filtered.get i)) (grm_nCalled (filtered.get i))
      filtered.length ((filtered.get i).getD (j : Nat) none)

/-- The matrix handed by `hwe_normalized_pca` to the PCA engine. -/
noncomputable def hwe_bm (ns : Nat) (filtered : List (List (Option Nat))) :
    Matrix (Fin filtered.length) (Fin ns) ℝ :=
  fun i j =>
    hwe_normalized_entry (grm_AC (filtered.get i)) (grm_nCalled (filtered.get i))
      filtered.length ((filtered.get i).getD (j : Nat) none)

/-- The result of `grm`: the relatedness matrix and the variant count used. -/
structure KinshipResult (ns : Nat) where
  matrix : Matrix (Fin ns) (Fin ns) ℝ
  nVariants : Nat

/-- The `grm` pipeline (lines 613-636): annotate `AC`/`n_called`, filter
monomorphic rows, fail when no variant remains, otherwise build the normalized
block matrix `bm` and return `bm.T.dot(bm)` with the variant count. -/
noncomputable def grm (ns : Nat) (variants : List (List (Option Nat))) :
    Except String (KinshipResult ns) :=
  let filtered := grm_filter variants
  if filtered.length = 0 then
    Except.error "Cannot run GRM: found 0 variants after filtering out monomorphic sites."
  else
    Except.ok { matrix := (grm_bm ns filtered).transpose * grm_bm ns filtered,
                nVariants := filtered.length }

/-- The `hwe_normalized_pca` pipeline up to the external PCA engine (lines
208-227): the same annotate/filter, fail when no variant remains, otherwise
hand the normalized entries to `pca`. -/
noncomputable def hwe_normalized_pca (ns : Nat) (variants : List (List (Option Nat))) :
    Except String (Matrix (Fin (hwe_filter variants).length) (Fin ns) ℝ) :=
  if (hwe_filter variants).length = 0 then
    Except.error "Cannot run PCA: found 0 variants after filtering out monomorphic sites."
  else
    Except.ok (hwe_bm ns (hwe_filter variants))

/-!
### split_multi_hts

The HTS genotype record of `split_multi_hts` (lines 399-407): a call is the
unordered pair of its allele indices, normalized so the first component is the
smaller; missing fields are `none`.
-/

/-- The HTS entry schema `{GT: Call, AD: Array[Int32], DP: Int32, GQ: Int32,
PL: Array[Int32]}`. -/
structure Genotype where
  GT : Option (Nat × Nat)
  AD : Option (List Nat)
  DP : Option Nat
  GQ : Option Nat
  PL : Option (List Nat)
deriving DecidableEq

/-- Modelled from the spec: downcoding maps each allele index to its count of
copies of the fixed alternate allele `a` — the allele index map sends `a` to 1
and every other allele to 0 (`src` docstring: "A call for an alternate allele
maps to 1 in the biallelic variant corresponding to itself and 0 otherwise"). -/
def downcodeAllele (ai a : Nat) : Nat :=
  if ai = a then 1 else 0

/-- Modelled from the spec: `downcode(call, aIndex)` — apply the allele index
map to both alleles of the unordered pair, keeping the pair normalized. -/
def downcode (c : Nat × Nat) (a : Nat) : Nat × Nat :=
  (min (downcodeAllele c.1 a) (downcodeAllele c.2 a),
   max (downcodeAllele c.1 a) (downcodeAllele c.2 a))

/-- Modelled from the spec: `Call(i)` — the unordered allele pair of genotype
index `i` in the standard VCF ordering 0/0, 0/1, 1/1, 0/2, 1/2, 2/2, ... -/
def callOfIndex : Nat → Nat × Nat
  | 0 => (0, 0)
  | i + 1 =>
      let p := callOfIndex i
      if p.1 < p.2 then (p.1 + 1, p.2) else (0, p.2 + 1)

/-- Modelled from the spec: `gqFromPL` — the genotype quality is the
difference between the two smallest values of the likelihood sequence. -/
def gqFromPL (pl : List Nat) : Nat :=
  match pl.min? with
  | none => 0
  | some m => ((pl.erase m).min?.getD m) - m

/-- The `genotype_expr` of `split_multi_hts` (lines 529-541), for a fixed
alternate allele index `aIndex`:
`newgt = downcode(g.GT, aIndex)`;
`newad = [g.AD.sum() - g.AD[aIndex], g.AD[aIndex]]` when `AD` is defined;
`newpl[i] = min over j < g.PL.length with downcode(Call(j), aIndex) == Call(i)
of g.PL[j]` for `i` in `range(3)` when `PL` is defined;
`newgq = gqFromPL(newpl)`; `DP` is copied.  The `.min()` of the expression
language is taken of a non-empty list whenever `1 ≤ aIndex ≤ m` and `PL` has
its full HTS length; the `getD 0` default is never reached there. -/
def splitGenotype (aIndex : Nat) (g : Genotype) : Genotype :=
  let newgt := g.GT.map (fun c => downcode c aIndex)
  let newad := g.AD.map (fun ad =>
    let sum := ad.sum
    let adi := ad.getD aIndex 0
    [sum - adi, adi])
  let newpl := g.PL.map (fun pl =>
    (List.range 3).map (fun i =>
      ((((List.range pl.length).filter
            (fun j => downcode (callOfIndex j) aIndex == callOfIndex i)).map
          (fun j => pl.getD j 0)).min?).getD 0))
  let newgq := newpl.map gqFromPL
  { GT := newgt, AD := newad, DP := g.DP, GQ := newgq, PL := newpl }

/-- One emitted row of `split_multi_hts`: the split annotations
`va.aIndex = aIndex, va.wasSplit = wasSplit` (line 528) and the rewritten
entries. -/
structure SplitRow where
  aIndex : Nat
  wasSplit : Bool
  entries : List Genotype
deriving DecidableEq

/-- Modelled from the spec: the split engine emits, for a variant with `m`
alternate alleles, `m` rows, one per alternate allele index `a ∈ {1..m}`, each
tagged `wasSplit = (m > 1)`, `aIndex = a`, with every sample's genotype record
downcoded by `genotype_expr` (star-allele dropping, irrelevant here, is the
`keep_star=True` behavior). -/
def splitMulti (m : Nat) (entries : List Genotype) : List SplitRow :=
  (List.range m).map (fun a0 =>
    { aIndex := a0 + 1,
      wasSplit := decide (1 < m),
      entries := entries.map (splitGenotype (a0 + 1)) })

/-!
### Precondition checks

The indexing context of an expression, and the validation steps the methods
run before any call into the external distributed engine.  Each method model
returns whether the engine was reached together with the outcome.
-/

/-- The indexing context of an expression against a dataset. -/
inductive Indices where
  | rowIndexed
  | colIndexed
  | entryIndexed
  | scalarIndexed
deriving DecidableEq

/-- Modelled from the spec: the expression-analysis collaborator `analyze`
type-checks an expression against the declared indexing context and rejects
mismatches with an error naming the caller. -/
def analyze (caller : String) (got expected : Indices) : Except String Unit :=
  if got = expected then Except.ok ()
  else Except.error (caller ++ ": expression has wrong indexing context")

/-- Run `analyze` on each expression of a list, stopping at the first error
(the `for e in ...` loops of `linreg`, lines 97-102). -/
def analyzeAll (caller : String) : List Indices → Indices → Except String Unit
  | [], _ => Except.ok ()
  | e :: es, expected =>
      match analyze caller e expected with
      | Except.error msg => Except.error msg
      | Except.ok _ => analyzeAll caller es expected

/-- Validation of `linreg` (lines 88-112, in source order): `x` is checked
entry-indexed, each response `y` and each covariate is checked column-indexed,
and only then is the engine `linreg` entrypoint invoked.  The boolean records
whether the engine was reached. -/
def linreg (x : Indices) (ys covariates : List Indices) :
    Bool × Except String Unit :=
  match analyze "linreg/x" x Indices.entryIndexed with
  | Except.error e => (false, Except.error e)
  | Except.ok _ =>
      match analyzeAll "linreg/ys" ys Indices.colIndexed with
      | Except.error e => (false, Except.error e)
      | Except.ok _ =>
          match analyzeAll "linreg/covariates" covariates Indices.colIndexed with
          | Except.error e => (false, Except.error e)
          | Except.ok _ => (true, Except.ok ())

/-- Modelled from the spec: the `require_biallelic` decorator (imported from
`.misc`, not under `src/`) fails fast with a descriptive error naming the
method when the dataset is not biallelic, before the wrapped body runs. -/
def require_biallelic (method : String) (biallelic : Bool) : Except String Unit :=
  if biallelic then Except.ok ()
  else Except.error ("method " ++ method ++ " requires biallelic variants")

/-- The `grm` entry point: `@require_biallelic` guards the body (line 547), so
a non-biallelic dataset is rejected before the pipeline and the engine run. -/
def grmGuard (biallelic : Bool) : Bool × Except String Unit :=
  match require_biallelic "grm" biallelic with
  | Except.error e => (false, Except.error e)
  | Except.ok _ => (true, Except.ok ())

/-- The `ld_matrix` entry point: `@require_biallelic` guards the body
(line 118) before `LDMatrix.apply` is invoked. -/
def ldMatrixGuard (biallelic : Bool) : Bool × Except String Unit :=
  match require_biallelic "ld_matrix" biallelic with
  | Except.error e => (false, Except.error e)
  | Except.ok _ => (true, Except.ok ())

/-- The `hwe_normalized_pca` entry point: `@require_biallelic` guards the body
(line 173) before the pipeline and the engine run. -/
def hwePcaGuard (biallelic : Bool) : Bool × Except String Unit :=
  match require_biallelic "hwe_normalized_pca" biallelic with
  | Except.error e => (false, Except.error e)
  | Except.ok _ => (true, Except.ok ())

/-- The source a numeric expression is rooted in: a matrix-shaped dataset, a
non-matrix table (with its class name), or no source at all (a scalar
expression). -/
inductive ExprSource where
  | matrixTable
  | table (className : String)
  | scalar
deriving DecidableEq

/-- Source check of `pca` (lines 342-345): raise a `ValueError` naming the
offending source unless `entry_expr._indices.source` is a `MatrixTable`. -/
def pcaSourceCheck (src : ExprSource) : Except String Unit :=
  match src with
  | ExprSource.matrixTable => Except.ok ()
  | ExprSource.table c =>
      Except.error ("Expect an expression of MatrixTable, found expression of " ++ c)
  | ExprSource.scalar =>
      Except.error "Expect an expression of MatrixTable, found scalar expression"

/-- The `pca` entry point (lines 342-350, in source order): the source check,
then `analyze('pca', entry_expr, dataset._entry_indices)`, then the engine
`PCA.apply` call. -/
def pcaCall (src : ExprSource) (idx : Indices) : Bool × Except String Unit :=
  match pcaSourceCheck src with
  | Except.error e => (false, Except.error e)
  | Except.ok _ =>
      match analyze "pca" idx Indices.entryIndexed with
      | Except.error e => (false, Except.error e)
      | Except.ok _ => (true, Except.ok ())

/-- Triangular numbers: `tri k` is the genotype index of the pair `(0, k)`,
and `tri (m+1)` is the length of the PL sequence of a site with `m` alternate
alleles. -/
def tri : Nat → Nat
  | 0 => 0
  | k + 1 => tri k + (k + 1)

/-- First worked example of the `split_multi_hts` docstring (line 424):
`A C,T 0/2:7,2,6:15:45:99,50,99,0,45,99`. -/
def docExample1 : Genotype :=
  { GT := some (0, 2), AD := some [7, 2, 6], DP := some 15,
    GQ := some 45, PL := some [99, 50, 99, 0, 45, 99] }

/-- A genotype record with every field missing. -/
def emptyGenotype : Genotype :=
  { GT := none, AD := none, DP := none, GQ := none, PL := none }

/-- A biallelic heterozygous record used to instantiate the idempotence
theorem. -/
def hetBiallelic : Genotype :=
  { GT := some (0, 1), AD := some [7, 8], DP := some 15,
    GQ := some 45, PL := some [50, 0, 99] }

/-- A biallelic record whose stored `GQ` (7) is inconsistent with its `PL`
(`gqFromPL [0,20,40] = 20`): splitting it rewrites `GQ`. -/
def biallelicProbe : Genotype :=
  { GT := some (0, 0), AD := some [10, 0], DP := some 10,
    GQ := some 7, PL := some [0, 20, 40] }

/-!
## Theorems
-/

/-- Auxiliary: a list of naturals bounded by 2 has sum at most twice its
length. -/
theorem sum_le_two_mul_length (l : List Nat) (h : ∀ c ∈ l, c ≤ 2) :
    l.sum ≤ 2 * l.length := by
  induction l with
  | nil => simp
  | cons a t ih =>
      have ha := h a (by simp)
      have ht := ih (fun c hc => h c (by simp [hc]))
      simp only [List.sum_cons, List.length_cons]
      omega

/-- C8: `hwe_normalized_pca` applies exactly the same monomorphic filtering
and the same normalized-entry expression as `grm`: the keep predicates, the
filtered variant lists and the normalized entry values of the two functions
coincide on every dataset and every entry. -/
theorem hwe_pca_refines_grm :
    (∀ calls : List (Option Nat), hwe_keep calls = grm_keep calls)
    ∧ (∀ variants : List (List (Option Nat)), hwe_filter variants = grm_filter variants)
    ∧ (∀ AC n_called n_variants : Nat, ∀ gt : Option Nat,
        hwe_normalized_entry AC n_called n_variants gt
          = grm_normalized_entry AC n_called n_variants gt) :=
  ⟨fun _ => rfl, fun _ => rfl, fun _ _ _ _ => rfl⟩

/-- C10: `pca` rejects an `entry_expr` whose source is not a matrix-shaped
dataset with a `ValueError` naming the offending source, before the index
analysis and the engine call; only expressions rooted in a `MatrixTable`
reach the engine. -/
theorem pca_source_check_rejects_non_matrix :
    (∀ (c : String) (idx : Indices),
        pcaCall (ExprSource.table c) idx =
          (false, Except.error
            ("Expect an expression of MatrixTable, found expression of " ++ c)))
    ∧ (∀ idx : Indices,
        pcaCall ExprSource.scalar idx =
          (false, Except.error
            "Expect an expression of MatrixTable, found scalar expression"))
    ∧ (∀ (src : ExprSource) (idx : Indices),
        (pcaCall src idx).1 = true → src = ExprSource.matrixTable) := by
  refine ⟨fun c idx => rfl, fun idx => rfl, fun src idx h => ?_⟩
  cases src with
  | matrixTable => rfl
  | table c => simp [pcaCall, pcaSourceCheck] at h
  | scalar => simp [pcaCall, pcaSourceCheck] at h

/-- Witness for C10 at concrete inputs. -/
theorem pca_source_check_rejects_non_matrix_witness :
    pcaCall (ExprSource.table "Table") Indices.entryIndexed =
      (false, Except.error
        "Expect an expression of MatrixTable, found expression of Table") :=
  pca_source_check_rejects_non_matrix.1 "Table" Indices.entryIndexed

/-- C6: the relatedness matrix returned by `grm`, computed as the product of
the transposed normalized block matrix with itself, is symmetric. -/
theorem grm_matrix_symmetric :
    ∀ (ns : Nat) (variants : List (List (Option Nat))) (r : KinshipResult ns),
      grm ns variants = Except.ok r → ∀ i k : Fin ns, r.matrix i k = r.matrix k i := by
  intro ns variants r h i k
  simp only [grm] at h
  by_cases h0 : (grm_filter variants).length = 0
  · simp [h0] at h
  · simp only [h0, if_false] at h
    have hr : r.matrix =
        (grm_bm ns (grm_filter variants)).transpose * grm_bm ns (grm_filter variants) := by
      cases h
      rfl
    rw [hr]
    rw [← Matrix.transpose_apply
      ((grm_bm ns (grm_filter variants)).transpose * grm_bm ns (grm_filter variants)) k i]
    rw [Matrix.transpose_mul, Matrix.transpose_transpose]

/-- Witness for C6: a dataset with one retained variant and two samples. -/
theorem grm_matrix_symmetric_witness :
    ∃ r : KinshipResult 2, grm 2 [[some 1, some 0]] = Except.ok r ∧
      r.matrix 0 1 = r.matrix 1 0 := by
  refine ⟨_, rfl, grm_matrix_symmetric 2 [[some 1, some 0]] _ rfl 0 1⟩

/-- Auxiliary: if no sample has more than 2 alternate alleles (diploid calls
at a biallelic site), the allele count never exceeds `2 * n_called`. -/
theorem grm_AC_le (calls : List (Option Nat)) (h : ∀ c ∈ calls.filterMap id, c ≤ 2) :
    grm_AC calls ≤ 2 * grm_nCalled calls :=
  sum_le_two_mul_length (calls.filterMap id) h

/-- C4: `grm` and `hwe_normalized_pca` discard exactly the variants with
`AC = 0` or `AC = 2 * n_called`, and fail with a descriptive fatal error
naming the operation if and only if zero variants remain after the filter;
on the error branch no matrix is constructed and no result is produced. -/
theorem monomorphic_filter_and_empty_error :
    (∀ calls : List (Option Nat), (∀ c ∈ calls.filterMap id, c ≤ 2) →
      (grm_keep calls = false ↔
        grm_AC calls = 0 ∨ grm_AC calls = 2 * grm_nCalled calls)
      ∧ (hwe_keep calls = false ↔
        grm_AC calls = 0 ∨ grm_AC calls = 2 * grm_nCalled calls))
    ∧ (∀ (ns : Nat) (variants : List (List (Option Nat))),
        ((∃ e, grm ns variants = Except.error e) ↔ grm_filter variants = [])
        ∧ ((∃ e, hwe_normalized_pca ns variants = Except.error e) ↔
            hwe_filter variants = [])
        ∧ (grm_filter variants = [] →
            grm ns variants = Except.error
              "Cannot run GRM: found 0 variants after filtering out monomorphic sites.")
        ∧ (hwe_filter variants = [] →
            hwe_normalized_pca ns variants = Except.error
              "Cannot run PCA: found 0 variants after filtering out monomorphic sites.")) := by
  constructor
  · intro calls h
    have hb := grm_AC_le calls h
    constructor <;>
      · simp only [grm_keep, hwe_keep, Bool.and_eq_false_iff,
          decide_eq_false_iff_not, not_lt]
        omega
  · intro ns variants
    refine ⟨?_, ?_, ?_, ?_⟩
    · by_cases h0 : grm_filter variants = []
      · simp [grm, h0]
      · have : (grm_filter variants).length ≠ 0 := by
          simpa [List.length_eq_zero] using h0
        simp [grm, this, h0]
    · by_cases h0 : hwe_filter variants = []
      · simp [hwe_normalized_pca, h0]
      · have : (hwe_filter variants).length ≠ 0 := by
          simpa [List.length_eq_zero] using h0
        simp [hwe_normalized_pca, this, h0]
    · intro h0
      simp [grm, h0]
    · intro h0
      simp [hwe_normalized_pca, h0]

/-- Witness for C4 at a concrete dataset: `[[some 1, some 0]]` keeps its
variant, the empty dataset errors. -/
theorem monomorphic_filter_and_empty_error_witness :
    (grm_keep [some 1, some 0] = false ↔
      grm_AC [some 1, some 0] = 0 ∨
        grm_AC [some 1, some 0] = 2 * grm_nCalled [some 1, some 0]) ∧
    grm 3 [] = Except.error
      "Cannot run GRM: found 0 variants after filtering out monomorphic sites." :=
  ⟨(monomorphic_filter_and_empty_error.1 [some 1, some 0] (by decide)).1,
   (monomorphic_filter_and_empty_error.2 3 []).2.2.1 rfl⟩

/-- Auxiliary: `analyzeAll` succeeds exactly when every expression of the list
has the expected indexing context. -/
theorem analyzeAll_eq_ok_iff (caller : String) (es : List Indices) (expected : Indices) :
    analyzeAll caller es expected = Except.ok () ↔ ∀ e ∈ es, e = expected := by
  induction es with
  | nil => simp [analyzeAll]
  | cons a t ih =>
      by_cases ha : a = expected <;> simp [analyzeAll, analyze, ha, ih]

/-- C9: precondition violations are rejected before the external engine is
invoked: `linreg` errors when `x` is not entry-indexed or a response or
covariate is not column-indexed, `pca` errors when `entry_expr` is not
entry-indexed, and `grm`, `ld_matrix` and `hwe_normalized_pca` error on
non-biallelic input; in every case the engine flag stays `false`. -/
theorem preconditions_rejected_before_engine :
    (∀ (x : Indices) (ys covariates : List Indices),
      (x ≠ Indices.entryIndexed
        ∨ (∃ y ∈ ys, y ≠ Indices.colIndexed)
        ∨ (∃ cv ∈ covariates, cv ≠ Indices.colIndexed)) →
      (linreg x ys covariates).1 = false ∧
        ∃ e, (linreg x ys covariates).2 = Except.error e)
    ∧ (∀ idx : Indices, idx ≠ Indices.entryIndexed →
        (pcaCall ExprSource.matrixTable idx).1 = false ∧
          ∃ e, (pcaCall ExprSource.matrixTable idx).2 = Except.error e)
    ∧ grmGuard false =
        (false, Except.error "method grm requires biallelic variants")
    ∧ ldMatrixGuard false =
        (false, Except.error "method ld_matrix requires biallelic variants")
    ∧ hwePcaGuard false =
        (false, Except.error "method hwe_normalized_pca requires biallelic variants") := by
  refine ⟨?_, ?_, rfl, rfl, rfl⟩
  · intro x ys covariates h
    by_cases hx : x = Indices.entryIndexed
    · subst hx
      rcases h with hx' | hbad
      · exact absurd rfl hx'
      · cases hys : analyzeAll "linreg/ys" ys Indices.colIndexed with
        | error m => simp [linreg, analyze, hys]
        | ok u =>
            cases u
            have hall := (analyzeAll_eq_ok_iff "linreg/ys" ys Indices.colIndexed).mp hys
            rcases hbad with ⟨y, hy, hne⟩ | ⟨cv, hcv, hne⟩
            · exact absurd (hall y hy) hne
            · cases hcovs : analyzeAll "linreg/covariates" covariates Indices.colIndexed with
              | error m => simp [linreg, analyze, hys, hcovs]
              | ok u2 =>
                  cases u2
                  exact absurd
                    ((analyzeAll_eq_ok_iff "linreg/covariates" covariates
                      Indices.colIndexed).mp hcovs cv hcv) hne
    · simp [linreg, analyze, hx]
  · intro idx h
    simp [pcaCall, pcaSourceCheck, analyze, h]

/-- Witness for C9 at concrete inputs: a row-indexed `x` for `linreg` and a
column-indexed `entry_expr` for `pca`. -/
theorem preconditions_rejected_before_engine_witness :
    ((linreg Indices.rowIndexed [] []).1 = false ∧
      ∃ e, (linreg Indices.rowIndexed [] []).2 = Except.error e) ∧
    ((pcaCall ExprSource.matrixTable Indices.colIndexed).1 = false ∧
      ∃ e, (pcaCall ExprSource.matrixTable Indices.colIndexed).2 = Except.error e) :=
  ⟨preconditions_rejected_before_engine.1 Indices.rowIndexed [] []
      (Or.inl (by decide)),
   preconditions_rejected_before_engine.2.1 Indices.colIndexed (by decide)⟩

/-- Auxiliary: the rational `mean_gt` cast to the reals is the real quotient
`AC / n_called`. -/
theorem mean_gt_cast (AC n_called : Nat) :
    ((mean_gt AC n_called : ℚ) : ℝ) = (AC : ℝ) / (n_called : ℝ) := by
  unfold mean_gt
  push_cast
  ring

/-- C1: for every variant retained by the monomorphic filter of `grm` and of
`hwe_normalized_pca`, with `mean_gt = AC / n_called`, the normalized entry
value is `(num_alt_alleles - mean_gt) / sqrt(mean_gt * (2 - mean_gt) *
n_variants / 2)` when the call is defined and `0` when it is missing. -/
theorem retained_entry_normalization :
    ∀ (variants : List (List (Option Nat))) (v : List (Option Nat)),
      v ∈ grm_filter variants → v ∈ hwe_filter variants →
      (∀ c : Nat,
        grm_normalized_entry (grm_AC v) (grm_nCalled v)
            (grm_filter variants).length (some c)
          = ((c : ℝ) - (grm_AC v : ℝ) / (grm_nCalled v : ℝ)) /
              Real.sqrt ((grm_AC v : ℝ) / (grm_nCalled v : ℝ) *
                (2 - (grm_AC v : ℝ) / (grm_nCalled v : ℝ)) *
                ((grm_filter variants).length : ℝ) / 2)
        ∧ hwe_normalized_entry (grm_AC v) (grm_nCalled v)
            (hwe_filter variants).length (some c)
          = ((c : ℝ) - (grm_AC v : ℝ) / (grm_nCalled v : ℝ)) /
              Real.sqrt ((grm_AC v : ℝ) / (grm_nCalled v : ℝ) *
                (2 - (grm_AC v : ℝ) / (grm_nCalled v : ℝ)) *
                ((hwe_filter variants).length : ℝ) / 2))
      ∧ grm_normalized_entry (grm_AC v) (grm_nCalled v)
          (grm_filter variants).length none = 0
      ∧ hwe_normalized_entry (grm_AC v) (grm_nCalled v)
          (hwe_filter variants).length none = 0 := by
  intro variants v _ _
  refine ⟨fun c => ⟨?_, ?_⟩, rfl, rfl⟩ <;>
    simp only [grm_normalized_entry, hwe_normalized_entry, mean_gt_cast]

/-- Witness for C1: the missing-call entry of the single retained variant of
`[[some 1, some 0]]` is 0. -/
theorem retained_entry_normalization_witness :
    grm_normalized_entry (grm_AC [some 1, some 0]) (grm_nCalled [some 1, some 0])
      (grm_filter [[some 1, some 0]]).length none = 0 :=
  (retained_entry_normalization [[some 1, some 0]] [some 1, some 0]
    (by decide) (by decide)).2.1

/-- C7: every variant surviving the monomorphic filter has `n_called > 0` and
`0 < mean_gt < 2`, so the divisor `sqrt(mean_gt * (2 - mean_gt) * n_variants
/ 2)` of the normalized entry is strictly positive — no division by zero and
no square root of a non-positive number. -/
theorem retained_variant_divisor_positive :
    ∀ (variants : List (List (Option Nat))) (v : List (Option Nat)),
      v ∈ grm_filter variants →
      0 < grm_nCalled v
      ∧ 0 < (grm_AC v : ℝ) / (grm_nCalled v : ℝ)
      ∧ (grm_AC v : ℝ) / (grm_nCalled v : ℝ) < 2
      ∧ 0 < Real.sqrt ((grm_AC v : ℝ) / (grm_nCalled v : ℝ) *
          (2 - (grm_AC v : ℝ) / (grm_nCalled v : ℝ)) *
          ((grm_filter variants).length : ℝ) / 2)
      ∧ 0 < Real.sqrt ((grm_AC v : ℝ) / (grm_nCalled v : ℝ) *
          (2 - (grm_AC v : ℝ) / (grm_nCalled v : ℝ)) *
          ((hwe_filter variants).length : ℝ) / 2) := by
  intro variants v hv
  have hkeep : grm_keep v = true := (List.mem_filter.mp hv).2
  have h12 : 0 < grm_AC v ∧ grm_AC v < 2 * grm_nCalled v := by
    simpa [grm_keep] using hkeep
  have hn : 0 < grm_nCalled v := by
    rcases h12 with ⟨h1, _⟩
    by_contra hc
    push_neg at hc
    have hnil : v.filterMap id = [] := List.length_eq_zero.mp (by omega)
    rw [grm_AC, hnil] at h1
    simp at h1
  have hACr : (0 : ℝ) < (grm_AC v : ℝ) := by exact_mod_cast h12.1
  have hnr : (0 : ℝ) < (grm_nCalled v : ℝ) := by exact_mod_cast hn
  have hq0 : 0 < (grm_AC v : ℝ) / (grm_nCalled v : ℝ) := div_pos hACr hnr
  have hq2 : (grm_AC v : ℝ) / (grm_nCalled v : ℝ) < 2 := by
    rw [div_lt_iff₀ hnr]
    have : (grm_AC v : ℝ) < ((2 * grm_nCalled v : Nat) : ℝ) := by
      exact_mod_cast h12.2
    push_cast at this
    linarith
  have hnv : (0 : ℝ) < ((grm_filter variants).length : ℝ) := by
    have hne : grm_filter variants ≠ [] := List.ne_nil_of_mem hv
    exact_mod_cast List.length_pos.mpr hne
  have hrad : 0 < (grm_AC v : ℝ) / (grm_nCalled v : ℝ) *
      (2 - (grm_AC v : ℝ) / (grm_nCalled v : ℝ)) *
      ((grm_filter variants).length : ℝ) / 2 := by
    have h2q : 0 < 2 - (grm_AC v : ℝ) / (grm_nCalled v : ℝ) := by linarith
    have := mul_pos (mul_pos hq0 h2q) hnv
    linarith
  exact ⟨hn, hq0, hq2, Real.sqrt_pos.mpr hrad, Real.sqrt_pos.mpr hrad⟩

/-- Witness for C7: the retained variant of `[[some 1, some 0]]` has a
positive number of called samples. -/
theorem retained_variant_divisor_positive_witness :
    0 < grm_nCalled [some 1, some 0] :=
  (retained_variant_divisor_positive [[some 1, some 0]] [some 1, some 0]
    (by decide)).1

/-- Auxiliary: removing the element at a valid index and adding it back gives
the original sum. -/
theorem sum_eraseIdx_add_getD :
    ∀ (l : List Nat) (i : Nat), i < l.length →
      (l.eraseIdx i).sum + l.getD i 0 = l.sum := by
  intro l
  induction l with
  | nil => intro i hi; simp at hi
  | cons a t ih =>
      intro i hi
      cases i with
      | zero => simp [List.eraseIdx]; omega
      | succ i =>
          have hi' : i < t.length := by simpa using hi
          have := ih i hi'
          simp only [List.eraseIdx, List.sum_cons, List.getD_cons_succ]
          omega

/-- C3: for every emitted split row with fixed alternate allele index `a` and
every sample with defined allelic depths, the new `AD` is the 2-element
sequence `[sum of all original depths except the one at index a, original
depth at index a]`; an undefined `AD` stays undefined. -/
theorem split_allelic_depth :
    ∀ (a : Nat) (g : Genotype),
      (∀ ad : List Nat, g.AD = some ad → a < ad.length →
        (splitGenotype a g).AD = some [(ad.eraseIdx a).sum, ad.getD a 0])
      ∧ (g.AD = none → (splitGenotype a g).AD = none) := by
  intro a g
  constructor
  · intro ad had hlt
    have hsum := sum_eraseIdx_add_getD ad a hlt
    have h1 : ad.sum - ad.getD a 0 = (ad.eraseIdx a).sum := by omega
    simp only [splitGenotype, had, Option.map_some', h1]
  · intro had
    simp [splitGenotype, had]

/-- Witness for C3: splitting the docstring example at allele 2 gives
`AD = [9, 6]`. -/
theorem split_allelic_depth_witness :
    (splitGenotype 2 docExample1).AD =
      some [(([7, 2, 6] : List Nat).eraseIdx 2).sum, ([7, 2, 6] : List Nat).getD 2 0] :=
  (split_allelic_depth 2 docExample1).1 [7, 2, 6] rfl (by decide)

/-- Auxiliary: for a biallelic site (`aIndex = 1`, alleles in `{0,1}`),
downcoding a normalized call is the identity. -/
theorem downcode_id_of_le_one (j k : Nat) (hjk : j ≤ k) (hk : k ≤ 1) :
    downcode (j, k) 1 = (j, k) := by
  interval_cases k <;> interval_cases j <;> decide

/-- Auxiliary: downcoding by allele 1 fixes a biallelic call field. -/
theorem splitGT_biallelic (gt : Option (Nat × Nat))
    (h : gt = none ∨ ∃ j k, gt = some (j, k) ∧ j ≤ k ∧ k ≤ 1) :
    gt.map (fun c => downcode c 1) = gt := by
  rcases h with h | ⟨j, k, h, hjk, hk⟩ <;> subst h
  · rfl
  · simp only [Option.map_some']
    exact congrArg some (downcode_id_of_le_one j k hjk hk)

/-- Auxiliary: the allelic-depth rewrite of the split engine fixes a
2-element depth field. -/
theorem splitAD_biallelic (ad : Option (List Nat))
    (h : ad = none ∨ ∃ d0 d1, ad = some [d0, d1]) :
    ad.map (fun l => [l.sum - l.getD 1 0, l.getD 1 0]) = ad := by
  rcases h with h | ⟨d0, d1, h⟩ <;> subst h
  · rfl
  · simp only [Option.map_some', Option.some.injEq]
    simp

/-- Auxiliary: the phred-likelihood rewrite of the split engine fixes a
3-element likelihood field at `aIndex = 1`. -/
theorem splitPL_biallelic (pl : Option (List Nat))
    (h : pl = none ∨ ∃ p0 p1 p2, pl = some [p0, p1, p2]) :
    pl.map (fun l =>
      (List.range 3).map (fun i =>
        ((((List.range l.length).filter
              (fun j => downcode (callOfIndex j) 1 == callOfIndex i)).map
            (fun j => l.getD j 0)).min?).getD 0)) = pl := by
  rcases h with h | ⟨p0, p1, p2, h⟩ <;> subst h
  · rfl
  · rfl

/-- Auxiliary: on a biallelic record, the split engine fixes `GT`, `AD`, `DP`
and `PL` and recomputes `GQ` as `gqFromPL` of the (unchanged) `PL`. -/
theorem splitGenotype_biallelic (g : Genotype)
    (hgt : g.GT = none ∨ ∃ j k, g.GT = some (j, k) ∧ j ≤ k ∧ k ≤ 1)
    (had : g.AD = none ∨ ∃ d0 d1, g.AD = some [d0, d1])
    (hpl : g.PL = none ∨ ∃ p0 p1 p2, g.PL = some [p0, p1, p2]) :
    splitGenotype 1 g =
      { GT := g.GT, AD := g.AD, DP := g.DP,
        GQ := g.PL.map gqFromPL, PL := g.PL } := by
  obtain ⟨gt, ad, dp, gq, pl⟩ := g
  simp only [splitGenotype]
  rw [splitGT_biallelic gt hgt, splitAD_biallelic ad had, splitPL_biallelic pl hpl]

/-- C5 counterexample: splitting an already-biallelic record whose stored `GQ`
is inconsistent with its `PL` does not return the input record unchanged —
`GQ` is recomputed from `PL` (7 becomes 20), so the emitted genotype fields
are not identical to the input. -/
theorem split_biallelic_not_identity :
    (splitMulti 1 [biallelicProbe]).map SplitRow.entries ≠ [[biallelicProbe]]
    ∧ (splitMulti 1 [biallelicProbe]).map SplitRow.aIndex = [1]
    ∧ (splitMulti 1 [biallelicProbe]).map SplitRow.wasSplit = [false]
    ∧ (splitGenotype 1 biallelicProbe).GQ = some 20
    ∧ biallelicProbe.GQ = some 7 := by decide

/-- C5 as amended: applying the split engine to an already-biallelic variant
(`m = 1`) yields one row with `wasSplit = False`, `aIndex = 1`, `GT`, `AD`,
`DP` and `PL` identical to the input, and `GQ` recomputed as `gqFromPL` of
the unchanged `PL` (rather than copied); consequently a second application of
the split engine is the identity. -/
theorem split_biallelic_idempotent :
    ∀ g : Genotype,
      (g.GT = none ∨ ∃ j k, g.GT = some (j, k) ∧ j ≤ k ∧ k ≤ 1) →
      (g.AD = none ∨ ∃ d0 d1, g.AD = some [d0, d1]) →
      (g.PL = none ∨ ∃ p0 p1 p2, g.PL = some [p0, p1, p2]) →
      splitMulti 1 [g] =
        [{ aIndex := 1, wasSplit := false,
           entries := [{ GT := g.GT, AD := g.AD, DP := g.DP,
                         GQ := g.PL.map gqFromPL, PL := g.PL }] }]
      ∧ splitGenotype 1 (splitGenotype 1 g) = splitGenotype 1 g := by
  intro g hgt had hpl
  have h1 := splitGenotype_biallelic g hgt had hpl
  constructor
  · have hr : List.range 1 = [0] := rfl
    simp [splitMulti, hr, h1]
  · rw [h1]
    exact splitGenotype_biallelic
      { GT := g.GT, AD := g.AD, DP := g.DP, GQ := g.PL.map gqFromPL, PL := g.PL }
      hgt had hpl

/-- Witness for the amended C5: the heterozygous biallelic record. -/
theorem split_biallelic_idempotent_witness :
    splitMulti 1 [hetBiallelic] =
      [{ aIndex := 1, wasSplit := false,
         entries := [{ GT := hetBiallelic.GT, AD := hetBiallelic.AD,
                       DP := hetBiallelic.DP, GQ := hetBiallelic.PL.map gqFromPL,
                       PL := hetBiallelic.PL }] }] :=
  (split_biallelic_idempotent hetBiallelic
    (Or.inr ⟨0, 1, rfl, by decide, by decide⟩)
    (Or.inr ⟨7, 8, rfl⟩)
    (Or.inr ⟨50, 0, 99, rfl⟩)).1

/-- Auxiliary: `callOfIndex` inverts the genotype-index encoding
`index (j, k) = tri k + j` for `j ≤ k`. -/
theorem callOfIndex_tri_add : ∀ (k j : Nat), j ≤ k → callOfIndex (tri k + j) = (j, k) := by
  intro k
  induction k with
  | zero =>
      intro j hj
      have hj0 : j = 0 := Nat.le_zero.mp hj
      subst hj0
      rfl
  | succ k ih =>
      intro j
      induction j with
      | zero =>
          intro _
          have h1 : tri (k + 1) + 0 = (tri k + k) + 1 := by
            simp only [tri]
            omega
          rw [h1]
          simp only [callOfIndex]
          rw [ih k (Nat.le_refl k)]
          simp
      | succ j ihj =>
          intro hj
          have h1 : tri (k + 1) + (j + 1) = (tri (k + 1) + j) + 1 := by omega
          rw [h1]
          simp only [callOfIndex]
          rw [ihj (by omega)]
          have hlt : j < k + 1 := by omega
          simp [hlt]

/-- Auxiliary: twice a triangular number. -/
theorem two_mul_tri : ∀ k : Nat, 2 * tri k = k * (k + 1) := by
  intro k
  induction k with
  | zero => rfl
  | succ k ih =>
      simp only [tri]
      rw [Nat.mul_add, ih]
      ring

/-- Auxiliary: triangular numbers are monotone. -/
theorem tri_mono : ∀ {a b : Nat}, a ≤ b → tri a ≤ tri b := by
  intro a b h
  induction b with
  | zero =>
      have ha : a = 0 := by omega
      subst ha
      exact Nat.le_refl _
  | succ b ih =>
      rcases Nat.lt_or_ge a (b + 1) with hl | hg
      · have := ih (by omega)
        simp only [tri]
        omega
      · have ha : a = b + 1 := by omega
        subst ha
        exact Nat.le_refl _

/-- Auxiliary: the homozygous-reference pair downcodes to genotype 0. -/
theorem downcode_hom_ref (a : Nat) (ha : 1 ≤ a) : downcode (0, 0) a = callOfIndex 0 := by
  show downcode (0, 0) a = (0, 0)
  have h0 : (0 : Nat) ≠ a := by omega
  simp [downcode, downcodeAllele, h0]

/-- Auxiliary: the pair `(0, a)` downcodes to genotype 1. -/
theorem downcode_het (a : Nat) (ha : 1 ≤ a) : downcode (0, a) a = callOfIndex 1 := by
  show downcode (0, a) a = (0, 1)
  have h0 : (0 : Nat) ≠ a := by omega
  simp [downcode, downcodeAllele, h0]

/-- Auxiliary: the pair `(a, a)` downcodes to genotype 2. -/
theorem downcode_hom_alt (a : Nat) : downcode (a, a) a = callOfIndex 2 := by
  show downcode (a, a) a = (1, 1)
  simp [downcode, downcodeAllele]

/-- C2: for every emitted split row with fixed alternate allele index
`a ∈ {1..m}` and every sample whose `PL` is defined (with its full HTS
length), each new phred-likelihood entry for downcoded genotype `gi ∈ {0,1,2}`
is the minimum of the original entries over all original genotype indices that
downcode to `gi`: it is a lower bound of them and is attained by one of them.
An undefined `PL` stays undefined, and `GQ` is recomputed from the new `PL`
sequence by `gqFromPL` rather than copied. -/
theorem split_pl_min_characterization :
    ∀ (m a : Nat) (g : Genotype) (pl : List Nat),
      1 ≤ a → a ≤ m → g.PL = some pl → pl.length = (m + 1) * (m + 2) / 2 →
      (∃ newpl : List Nat,
        (splitGenotype a g).PL = some newpl ∧
        (splitGenotype a g).GQ = some (gqFromPL newpl) ∧
        newpl.length = 3 ∧
        ∀ gi : Nat, gi < 3 →
          (∀ j : Nat, j < pl.length → downcode (callOfIndex j) a = callOfIndex gi →
            newpl.getD gi 0 ≤ pl.getD j 0) ∧
          (∃ j : Nat, j < pl.length ∧ downcode (callOfIndex j) a = callOfIndex gi ∧
            newpl.getD gi 0 = pl.getD j 0))
      ∧ ∀ h : Genotype, h.PL = none →
          (splitGenotype a h).PL = none ∧ (splitGenotype a h).GQ = none := by
  intro m a g pl ha1 ham hpl hlen
  constructor
  · have h2 : 2 * tri (m + 1) = (m + 1) * (m + 2) := by
      rw [two_mul_tri]
    have hlen' : pl.length = tri (m + 1) := by
      rw [hlen]
      generalize hM : (m + 1) * (m + 2) = M at h2 ⊢
      omega
    have htrim : tri (m + 1) = tri m + (m + 1) := rfl
    have htam : tri a ≤ tri m := tri_mono ham
    refine ⟨(List.range 3).map (fun i =>
        ((((List.range pl.length).filter
              (fun j => downcode (callOfIndex j) a == callOfIndex i)).map
            (fun j => pl.getD j 0)).min?).getD 0), ?_, ?_, by simp, ?_⟩
    · simp only [splitGenotype, hpl, Option.map_some']
    · simp only [splitGenotype, hpl, Option.map_some']
    · intro gi hgi
      have hget : ((List.range 3).map (fun i =>
          ((((List.range pl.length).filter
                (fun j => downcode (callOfIndex j) a == callOfIndex i)).map
              (fun j => pl.getD j 0)).min?).getD 0)).getD gi 0 =
          ((((List.range pl.length).filter
                (fun j => downcode (callOfIndex j) a == callOfIndex gi)).map
              (fun j => pl.getD j 0)).min?).getD 0 := by
        interval_cases gi <;> rfl
      rw [hget]
      have hmemS : ∀ j : Nat, j < pl.length →
          downcode (callOfIndex j) a = callOfIndex gi →
          pl.getD j 0 ∈ ((List.range pl.length).filter
              (fun j => downcode (callOfIndex j) a == callOfIndex gi)).map
            (fun j => pl.getD j 0) := by
        intro j hj hdc
        refine List.mem_map.mpr ⟨j, ?_, rfl⟩
        refine List.mem_filter.mpr ⟨List.mem_range.mpr hj, ?_⟩
        simp [hdc]
      have hw : ∃ jw : Nat, jw < pl.length ∧
          downcode (callOfIndex jw) a = callOfIndex gi := by
        interval_cases gi
        · refine ⟨0, ?_, ?_⟩
          · rw [hlen', htrim]
            omega
          · exact downcode_hom_ref a ha1
        · refine ⟨tri a, ?_, ?_⟩
          · rw [hlen', htrim]
            omega
          · have := callOfIndex_tri_add a 0 (by omega)
            rw [Nat.add_zero] at this
            rw [this]
            exact downcode_het a ha1
        · refine ⟨tri a + a, ?_, ?_⟩
          · rw [hlen', htrim]
            omega
          · rw [callOfIndex_tri_add a a (Nat.le_refl a)]
            exact downcode_hom_alt a
      obtain ⟨jw, hjw, hdcw⟩ := hw
      have hmemw := hmemS jw hjw hdcw
      obtain ⟨v, hv⟩ : ∃ v, (((List.range pl.length).filter
            (fun j => downcode (callOfIndex j) a == callOfIndex gi)).map
          (fun j => pl.getD j 0)).min? = some v := by
        cases hS : ((List.range pl.length).filter
            (fun j => downcode (callOfIndex j) a == callOfIndex gi)).map
          (fun j => pl.getD j 0) with
        | nil =>
            rw [hS] at hmemw
            simp at hmemw
        | cons x xs => exact ⟨xs.foldl min x, rfl⟩
      obtain ⟨hvmem, hvle⟩ := List.min?_eq_some_iff'.mp hv
      rw [hv]
      constructor
      · intro j hj hdc
        exact hvle (pl.getD j 0) (hmemS j hj hdc)
      · obtain ⟨j, hjf, hjeq⟩ := List.mem_map.mp hvmem
        obtain ⟨hjr, hjc⟩ := List.mem_filter.mp hjf
        refine ⟨j, List.mem_range.mp hjr, ?_, hjeq.symm⟩
        exact eq_of_beq hjc
  · intro h hh
    constructor <;> simp [splitGenotype, hh]

/-- Witness for C2: the docstring example split at allele 2, and an
all-missing record. -/
theorem split_pl_min_characterization_witness :
    (splitGenotype 2 emptyGenotype).PL = none ∧
      (splitGenotype 2 emptyGenotype).GQ = none :=
  (split_pl_min_characterization 2 2 docExample1 [99, 50, 99, 0, 45, 99]
    (by decide) (by decide) rfl (by decide)).2 emptyGenotype rfl

end Hail
